/-
Verification of the MultiNBS data-import utilities
(`MultiNBS/data_import_tools.py`).

The Python module works on pandas DataFrames and networkx graphs.  We use a
shallow embedding:

* a pandas cell value is a `Val`: either the missing value `NaN`, a rational
  number (Python floats are modelled as `ℚ`), or a string;
* a DataFrame is a `DF`: a list of row labels, a list of column labels, and an
  entry function keyed by labels (pandas labels may themselves be numbers or
  strings, so labels are also `Val`s);
* a networkx graph is an `NXGraph`: a finite node set and a finite set of
  undirected edges (`Sym2`);
* file I/O is modelled by passing the file contents (lines of characters, or
  an already-parsed table) as arguments, and `to_csv`/`return` by the value
  the function produces;
* Python exceptions are modelled by `Except String`, the message identifying
  which `raise` fired (quote characters of the original messages are elided).
-/
import Mathlib

namespace MultiNBS

/-- A pandas cell value: missing (`NaN`), a number, or a string. -/
inductive Val where
  | nan : Val
  | num (q : ℚ) : Val
  | str (s : String) : Val
deriving DecidableEq

/-- Does `pd.isnull` hold of the value? -/
def Val.isNa : Val → Bool
  | .nan => true
  | _ => false

/-- Is the value a number? -/
def Val.isNum : Val → Bool
  | .num _ => true
  | _ => false

/-- Elementwise addition as pandas performs it on numeric data: `NaN`
propagates.  (On a number/string mix pandas raises `TypeError`; that state is
never reached under the numeric hypotheses used below, and we collapse it to
`NaN`.) -/
def Val.add : Val → Val → Val
  | .num a, .num b => .num (a + b)
  | _, _ => .nan

/-- Elementwise subtraction with `NaN` propagation (see `Val.add`). -/
def Val.sub : Val → Val → Val
  | .num a, .num b => .num (a - b)
  | _, _ => .nan

/-- Elementwise division with `NaN` propagation (see `Val.add`).  Division by
zero cannot occur where this is used: `min_max_normalize` divides only by a
range it has checked to be nonzero. -/
def Val.div : Val → Val → Val
  | .num a, .num b => .num (a / b)
  | _, _ => .nan

/-- Multiplication by a Python float scalar (`beta * matrix`), with `NaN`
propagation (see `Val.add`). -/
def Val.mulNum (b : ℚ) : Val → Val
  | .num a => .num (b * a)
  | _ => .nan

/-- A pandas DataFrame: row labels (`index`), column labels (`columns`) and
the cell contents, keyed by the labels.  Only values `ent r c` with
`r ∈ idx` and `c ∈ cols` are meaningful. -/
structure DF where
  idx : List Val
  cols : List Val
  ent : Val → Val → Val

/-- Model of `df.isnull().values.any()`. -/
def DF.isnullAny (d : DF) : Bool :=
  d.idx.any (fun r => d.cols.any (fun c => (d.ent r c).isNa))

/-- Model of `df.fillna(0)`. -/
def DF.fillna0 (d : DF) : DF :=
  { d with ent := fun r c => match d.ent r c with
      | .nan => .num 0
      | v => v }

/-- Model of `df.reindex(newIdx)`: rows are re-keyed to the new labels, labels
absent from the old index yield `NaN` rows.  (pandas raises if the old index
contains duplicates; the theorems below assume distinct patient labels, where
this model and pandas agree.) -/
def DF.reindex (d : DF) (newIdx : List Val) : DF :=
  { idx := newIdx, cols := d.cols,
    ent := fun r c => if r ∈ d.idx then d.ent r c else .nan }

/-- Model of `df.set_index(series)` where `series` assigns to each old row
label `r` the new label `keyOf r` (in the source, the value of the first
column at `r`).  Entries are re-keyed accordingly; with duplicate new labels
the first matching row is used (the theorems below assume the labels are
distinct, where this model and pandas agree). -/
def DF.setIndexVals (d : DF) (keyOf : Val → Val) : DF :=
  { idx := d.idx.map keyOf, cols := d.cols,
    ent := fun p c =>
      match d.idx.find? (fun r => decide (keyOf r = p)) with
      | some r => d.ent r c
      | none => .nan }

/-- Model of keeping only the listed columns, `df[cs]`, without the
existence check (used for `rna_mat[rna_mat.columns.intersection(...)]`,
where the selected labels are a sublist of the existing columns). -/
def DF.restrictCols (d : DF) (cs : List Val) : DF :=
  { d with cols := cs }

/-- Error message for a failed column selection. -/
def keyErrMsg : String := "KeyError: requested columns not present"

/-- Model of `df[cs]` with the pandas existence check: selecting a column
that does not exist raises a `KeyError`. -/
def DF.getCols (d : DF) (cs : List Val) : Except String DF :=
  if ∀ c ∈ cs, c ∈ d.cols then .ok (d.restrictCols cs) else .error keyErrMsg

/-- Numeric values of a column, in order, `NaN`s skipped — as pandas
`Series.min`/`Series.max` skip missing values. -/
def numsOf (xs : List Val) : List ℚ :=
  xs.filterMap (fun v => match v with
    | .num q => some q
    | _ => none)

/-- Model of `Series.min()`: minimum of the non-missing values, `NaN` if
there are none. -/
def vmin (xs : List Val) : Val :=
  match numsOf xs with
  | [] => .nan
  | q :: qs => .num (qs.foldl min q)

/-- Model of `Series.max()`: maximum of the non-missing values, `NaN` if
there are none. -/
def vmax (xs : List Val) : Val :=
  match numsOf xs with
  | [] => .nan
  | q :: qs => .num (qs.foldl max q)

/-- Value of `min_max_normalize` (source lines 274-281) at one cell of a
column whose values are `colvals`: if `col.max() - col.min()` equals `0` the
cell is mapped to `0`, otherwise to `(x - col.min()) / (col.max() - col.min())`.
Note that a `NaN` range (all-missing column) fails the `== 0` comparison, as
in Python, and falls into the division branch, producing `NaN`. -/
def min_max_entry (colvals : List Val) (x : Val) : Val :=
  let m := vmin colvals
  let rg := Val.sub (vmax colvals) m
  if rg = Val.num 0 then Val.num 0 else Val.div (Val.sub x m) rg

/-- The source's `min_max_normalize` applied to one column presented as a
list of values. -/
def min_max_normalize (col : List Val) : List Val :=
  let m := vmin col
  let rg := Val.sub (vmax col) m
  if rg = Val.num 0 then col.map (fun _ => Val.num 0)
  else col.map (fun x => Val.div (Val.sub x m) rg)

/-- Model of `rna_mat_clean.apply(min_max_normalize)`: every column is
min-max normalized.  Since entries are keyed by labels, transforming each
entry with its column statistics is the same as transforming the column. -/
def DF.applyMinMax (d : DF) : DF :=
  { d with ent := fun r c => min_max_entry (d.idx.map (fun r2 => d.ent r2 c)) (d.ent r c) }

/-- Model of `beta * df` (scalar multiplication of a DataFrame). -/
def DF.smul (b : ℚ) (d : DF) : DF :=
  { d with ent := fun r c => Val.mulNum b (d.ent r c) }

/-- Union of label lists, keeping the order of the first list.  pandas keeps
the order when the two label sets are equal, which is the only case exercised
by `calc_combined_matrix` (both summands carry `sm_mat`'s labels). -/
def unionKeep (xs ys : List Val) : List Val :=
  xs ++ ys.filter (fun y => ¬ y ∈ xs)

/-- Model of DataFrame addition `a + b`: labels are aligned, a cell present
in both frames holds the (`NaN`-propagating) sum, a cell missing from either
frame is `NaN`. -/
def DF.addFrames (a b : DF) : DF :=
  { idx := unionKeep a.idx b.idx, cols := unionKeep a.cols b.cols,
    ent := fun r c =>
      if r ∈ a.idx ∧ c ∈ a.cols ∧ r ∈ b.idx ∧ c ∈ b.cols
      then Val.add (a.ent r c) (b.ent r c) else .nan }

/-- Message of the `raise ValueError` guarding `beta` (source line 241). -/
def alphaMsg : String := "Alpha must be a value between 0 and 1, inclusive"

/-- Message of the `raise ValueError` for missing values in `sm_mat`
(source line 245). -/
def smNaMsg : String :=
  "All sm_mat entries must have non NA values. If you wish to set these cells to 0, set replace_nan = True "

/-- Message of the `raise ValueError` for missing values in `rna_mat`
(source line 247). -/
def rnaNaMsg : String :=
  "All rna_mat entries must have non NA values. If you wish to set these cells to 0, set replace_nan = True "

/-- Message of the `IndexError` that `rna_mat.iloc[:, 0]` raises on a
DataFrame with no columns. -/
def ilocMsg : String := "IndexError: single positional indexer is out-of-bounds"

/-- The alignment part of `calc_combined_matrix` (source lines 260-269),
given the label `c0` of `rna_mat`'s first column: keep only the columns also
present in `sm_mat`, set the row index to the patient ids found in column
`c0`, and reindex the rows to `sm_mat.index`.  The final column selection
`rna_mat_clean[sm_mat.columns]` is performed by the caller because it can
raise a `KeyError`. -/
def alignRNA (sm_mat rna_mat : DF) (c0 : Val) : DF :=
  ((rna_mat.restrictCols (rna_mat.cols.filter (fun c => c ∈ sm_mat.cols))).setIndexVals
      (fun r => rna_mat.ent r c0)).reindex sm_mat.idx

/-- The `sm_mat = sm_mat.fillna(0)` / `rna_mat = rna_mat.fillna(0)`
statements guarded by `replace_nan == True` (source lines 251-253). -/
def maybeFill (replace_nan : Bool) (d : DF) : DF :=
  if replace_nan then d.fillna0 else d

/-- The combination part of `calc_combined_matrix` after the validity checks
and optional fillna (source lines 260-285): take the patient ids from the
first column of `rna_mat` (`iloc[:, 0]` raises an `IndexError` on a frame
with no columns), align the expression matrix to `sm_mat`, min-max normalize
each gene column, and form `beta * sm_mat + (1 - beta) * rna_norm`. -/
def combineCore (sm rna : DF) (beta : ℚ) : Except String DF :=
  match rna.cols with
  | [] => .error ilocMsg
  | c0 :: _ =>
    match (alignRNA sm rna c0).getCols sm.cols with
    | .error e => .error e
    | .ok rna_clean =>
      .ok (DF.addFrames (DF.smul beta sm) (DF.smul (1 - beta) rna_clean.applyMinMax))

/-- Model of `calc_combined_matrix` (source lines 234-300).  The state of the
two matrices after each statement is threaded explicitly; saving to
`outdir` is a side effect of the same computed matrix and is not modelled
separately.  A raised exception is an `Except.error` carrying the message. -/
def calc_combined_matrix (sm_mat rna_mat : DF) (beta : ℚ) (replace_nan : Bool) :
    Except String DF :=
  if beta < 0 ∨ beta > 1 then .error alphaMsg
  else if sm_mat.isnullAny then .error smNaMsg
  else if rna_mat.isnullAny then .error rnaNaMsg
  else combineCore (maybeFill replace_nan sm_mat) (maybeFill replace_nan rna_mat) beta

/-- Message projection of a result, used to state which error was raised. -/
def exceptMsg : Except String DF → Option String
  | .error e => some e
  | .ok _ => none

/-- Entry projection of a result, used to state facts about single cells of
a returned matrix. -/
def entryOf (r c : Val) : Except String DF → Option Val
  | .ok m => some (m.ent r c)
  | .error _ => none

/-- Index projection of a result. -/
def idxOf : Except String DF → Option (List Val)
  | .ok m => some m.idx
  | .error _ => none

/-- Columns projection of a result. -/
def colsOf : Except String DF → Option (List Val)
  | .ok m => some m.cols
  | .error _ => none

/-- Python `line.split(sep)` for the single-character separator tab, over the
characters of the line ("a\tb" splits to ["a", "b"], a trailing tab yields a
trailing empty field, an empty line yields one empty field). -/
def splitTab : List Char → List (List Char)
  | [] => [[]]
  | c :: rest =>
    match splitTab rest with
    | [] => [[c]]
    | f :: fs => if c = '\t' then [] :: f :: fs else (c :: f) :: fs

/-- Field extraction of one line of a sparse mutation file (source line 39):
`(line.split(tab)[0], line.split(tab)[1])`.  A line with fewer than two
fields makes Python raise an `IndexError`, modelled by `none`. -/
def parsePair (line : List Char) : Option (String × String) :=
  match splitTab line with
  | a :: b :: _ => some (String.mk a, String.mk b)
  | _ => none

/-- Message of the `IndexError` raised on a line without a tab. -/
def lineIndexMsg : String := "IndexError: list index out of range"

/-- Message of the `ValueError` that `unstack` raises on duplicate
(sample, gene) pairs. -/
def dupPairMsg : String := "ValueError: Index contains duplicate entries, cannot reshape"

/-- Message of the `ValueError` for an unrecognized filetype (source line 46,
quote characters elided). -/
def filetypeMsg : String := "ValueError: filetype must be either matrix or list."

/-- Model of source lines 40-42: the two-column pair list is turned into a
dense binary matrix.  `DataFrame(1, index=multiindex)[0].unstack()` places a
`1` at each (sample, gene) pair of the file and `NaN` elsewhere, and
`.fillna(0)` turns the `NaN`s into `0`.  Row labels are the distinct samples
and column labels the distinct genes (pandas sorts them; the order of the
labels is irrelevant to every property below, so the distinct labels are kept
in list order). -/
def unstackPairs (pairs : List (String × String)) : DF :=
  { idx := (pairs.map (fun p => Val.str p.1)).dedup,
    cols := (pairs.map (fun p => Val.str p.2)).dedup,
    ent := fun r c =>
      if ∃ p ∈ pairs, r = Val.str p.1 ∧ c = Val.str p.2 then Val.num 1 else Val.num 0 }

/-- Python `int(float)` truncation toward zero, used for `astype(int)`. -/
def pyTrunc (q : ℚ) : ℤ :=
  if 0 ≤ q then ⌊q⌋ else ⌈q⌉

/-- Model of `.astype(int)` on the dense matrix branch. -/
def DF.astypeInt (d : DF) : DF :=
  { d with ent := fun r c => match d.ent r c with
      | .num q => .num (pyTrunc q)
      | v => v }

/-- Model of `load_binary_mutation_data` (source lines 34-49).  File I/O is
modelled by passing the file contents: `lines` is the result of
`f.read().splitlines()` for the `list` branch, and `matrixFile` the table
that `pd.read_csv` parses for the `matrix` branch. -/
def load_binary_mutation_data (lines : List (List Char)) (matrixFile : DF)
    (filetype : String) : Except String DF :=
  if filetype = "list" then
    match lines.mapM parsePair with
    | none => .error lineIndexMsg
    | some pairs =>
      if pairs.Nodup then .ok (unstackPairs pairs) else .error dupPairMsg
  else if filetype = "matrix" then .ok matrixFile.astypeInt
  else .error filetypeMsg

/-- One row of a scored edge table, as read by `filter_weighted_network`:
the two endpoint fields, the score field, and any remaining fields of the
row (the source selects the three relevant columns by position; they are
modelled as named fields). -/
structure WRow where
  nodeA : String
  nodeB : String
  score : ℚ
  extra : List String

/-- Insertion of a value into a sorted list of scores. -/
def insertSorted (a : ℚ) : List ℚ → List ℚ
  | [] => [a]
  | b :: bs => if a ≤ b then a :: b :: bs else b :: insertSorted a bs

/-- Scores in ascending order (insertion sort). -/
def sortScores (l : List ℚ) : List ℚ := l.foldr insertSorted []

/-- Floor of a rational, computed by floor-division of the numerator. -/
def ratFloor (q : ℚ) : ℤ := q.num.fdiv q.den

/-- Model of `Series.quantile(q)` with pandas' default linear interpolation:
with the `n` scores in ascending order `v 0 ≤ … ≤ v (n-1)` and
`h = q * (n - 1)`, the quantile is `v ⌊h⌋ + (h - ⌊h⌋) * (v (⌊h⌋ + 1) - v ⌊h⌋)`.
(pandas returns `NaN` for an empty column; the empty case is irrelevant below
and yields `0`.) -/
def pandas_quantile (scores : List ℚ) (q : ℚ) : ℚ :=
  let sorted := sortScores scores
  match sorted with
  | [] => 0
  | s0 :: _ =>
    let h : ℚ := q * ((sorted.length : ℚ) - 1)
    let i : ℕ := (ratFloor h).toNat
    let lo := sorted.getD i s0
    let hi := sorted.getD (i + 1) lo
    lo + (h - (ratFloor h : ℚ)) * (hi - lo)

/-- Model of `filter_weighted_network` (source lines 159-170): compute the
`q`-quantile of the score column, keep exactly the rows whose score is
strictly greater, and keep only the node-A, node-B and score columns.  The
returned list is what `to_csv` writes to the save path, one row per line. -/
def filter_weighted_network (rows : List WRow) (q : ℚ) : List (String × String × ℚ) :=
  let q_score := pandas_quantile (rows.map WRow.score) q
  (rows.filter (fun r => q_score < r.score)).map (fun r => (r.nodeA, r.nodeB, r.score))

/-- A networkx graph: a finite set of node labels and a finite set of
undirected edges. -/
structure NXGraph (V : Type) where
  nodes : Finset V
  edges : Finset (Sym2 V)

/-- A graph without self-loops (the shape of every graph the module loads
from an edge list of distinct endpoints). -/
def NXGraph.Loopless {V : Type} (G : NXGraph V) : Prop :=
  ∀ e ∈ G.edges, ¬ e.IsDiag

/-- How often networkx counts edge `e` towards the degree of `v`: once if
`v` is an endpoint, twice if `e` is a self-loop at `v`. -/
def edgeMult {V : Type} [DecidableEq V] (v : V) (e : Sym2 V) : ℕ :=
  (if v ∈ e then 1 else 0) + (if e = s(v, v) then 1 else 0)

/-- networkx `G.degree(v)`: the number of incident edges, self-loops counted
twice. -/
def nxDegree {V : Type} [DecidableEq V] (G : NXGraph V) (v : V) : ℕ :=
  ∑ e ∈ G.edges, edgeMult v e

/-- One attempted swap of networkx `double_edge_swap`: edges `u-v` and `x-y`
are replaced by `u-x` and `v-y`.  networkx picks `u` and `x` distinct,
`v` among the neighbours of `u` and `y` among the neighbours of `x`, skips
the attempt when `v == y`, and performs the rewiring only when `x ∉ G[u]`
and `y ∉ G[v]`; an attempt that fails any of these checks leaves the graph
unchanged.  The edges are added before the removals, as in the source. -/
def double_edge_swap_step {V : Type} [DecidableEq V] (G : NXGraph V) (u v x y : V) :
    NXGraph V :=
  if u ≠ x ∧ v ≠ y ∧ s(u, v) ∈ G.edges ∧ s(x, y) ∈ G.edges ∧
      s(u, x) ∉ G.edges ∧ s(v, y) ∉ G.edges
  then { G with edges := (G.edges ∪ {s(u, x), s(v, y)}) \ {s(u, v), s(x, y)} }
  else G

/-- Model of `degree_shuffNet` (source lines 124-137): the input graph is
copied and `nx.double_edge_swap` attempts a randomized sequence of swaps on
the copy.  The randomness is modelled by quantifying over an arbitrary finite
sequence of attempted swaps; the `try/except` of the source tolerates the
swap routine giving up early, so the sequence may have any length (including
zero). -/
def degree_shuffNet {V : Type} [DecidableEq V] (G : NXGraph V)
    (swaps : List (V × V × V × V)) : NXGraph V :=
  swaps.foldl (fun g t => double_edge_swap_step g t.1 t.2.1 t.2.2.1 t.2.2.2) G

/-- Model of `label_shuffNet` (source lines 140-154): the node labels are
permuted by the relabelling map `f` built from the shuffled node list, and
`nx.relabel_nodes(network, map, copy=True)` returns the image graph. -/
def label_shuffNet {V : Type} [DecidableEq V] (G : NXGraph V) (f : V → V) : NXGraph V :=
  { nodes := G.nodes.image f, edges := G.edges.image (Sym2.map f) }

/-- Caller view of `degree_shuffNet`: the function copies its argument
(`shuff_net = network.copy()`) and the in-place swaps act on the copy, so the
caller is left with the pair (its own unchanged graph, the returned shuffled
graph). -/
def degree_shuffNet_caller {V : Type} [DecidableEq V] (network : NXGraph V)
    (swaps : List (V × V × V × V)) : NXGraph V × NXGraph V :=
  let shuff_net := network
  (network, degree_shuffNet shuff_net swaps)

/-- Caller view of `label_shuffNet`: `nx.relabel_nodes(…, copy=True)` builds
a fresh graph, so the caller is left with the pair (its own unchanged graph,
the returned relabelled graph). -/
def label_shuffNet_caller {V : Type} [DecidableEq V] (network : NXGraph V)
    (f : V → V) : NXGraph V × NXGraph V :=
  (network, label_shuffNet network f)

/-- Minimum of a list of rationals (`0` for the empty list, which is never
used below). -/
def listMin : List ℚ → ℚ
  | [] => 0
  | x :: xs => xs.foldl min x

/-- Maximum of a list of rationals (`0` for the empty list, which is never
used below). -/
def listMax : List ℚ → ℚ
  | [] => 0
  | x :: xs => xs.foldl max x

/-- A 1 × 1 mutation matrix whose only cell is missing, for exercising the
missing-value check. -/
def smAllNa : DF :=
  { idx := [.str "s1"], cols := [.str "g1"], ent := fun _ _ => .nan }

/-- A 1 × 1 binary mutation matrix for sample `s1` and gene `g1`. -/
def smBinary : DF :=
  { idx := [.str "s1"], cols := [.str "g1"], ent := fun _ _ => .num 1 }

/-- An expression matrix whose patient-id column holds `s2`: it has no row
for `smBinary`'s sample `s1`, so reindexing to `smBinary` introduces a
missing value. -/
def rnaMismatch : DF :=
  { idx := [.str "r0"], cols := [.str "pid", .str "g1"],
    ent := fun _ c => if c = Val.str "pid" then .str "s2" else .num 5 }

/-- An expression matrix whose patient-id column holds `s1`, matching
`smBinary`'s sample. -/
def rnaMatch : DF :=
  { idx := [.str "r0"], cols := [.str "pid", .str "g1"],
    ent := fun _ c => if c = Val.str "pid" then .str "s1" else .num 5 }

/-- Lines of a small sparse mutation file. -/
def mutLines : List (List Char) := ["p1\tg1".data, "p2\tg2".data]

/-- The (sample, gene) pairs of `mutLines`. -/
def mutPairs : List (String × String) := [("p1", "g1"), ("p2", "g2")]

/-- A placeholder parsed dense matrix (the `matrix` branch is not taken in
the list-branch witnesses). -/
def dummyMatrix : DF := { idx := [], cols := [], ent := fun _ _ => .num 0 }

/-- A four-node graph with two disjoint edges, on which a double edge swap
can fire. -/
def swapGraph : NXGraph (Fin 4) :=
  { nodes := {0, 1, 2, 3}, edges := {s(0, 1), s(2, 3)} }

/-- One swap attempt rewiring `0-1, 2-3` into `0-2, 1-3`. -/
def swapList : List (Fin 4 × Fin 4 × Fin 4 × Fin 4) := [(0, 1, 2, 3)]

/-- A three-node path graph. -/
def pathGraph : NXGraph (Fin 3) :=
  { nodes := {0, 1, 2}, edges := {s(0, 1), s(1, 2)} }

/-- A cyclic relabelling of the three node labels. -/
def rotMap : Fin 3 → Fin 3 := fun v => v + 1

/-- C1.  The spec says a matrix with missing values is not rejected when
`replace_nan = True`; the code's own error message promises the same
("If you wish to set these cells to 0, set replace_nan = True").  The code,
however, performs the `isnull` checks (source lines 244-247) before the
`fillna` replacement (source lines 251-253), so with `replace_nan = True` a
matrix containing a missing value is still rejected with the very error that
tells the caller to set `replace_nan = True`.  This theorem evaluates the
model at such an input: `sm_mat` has a NaN cell, `replace_nan` is true, yet
the `sm_mat` missing-value `ValueError` is raised. -/
theorem C1_nan_rejected_despite_replace_nan :
    exceptMsg (calc_combined_matrix smAllNa rnaMatch (1 / 2) true) = some smNaMsg := by
  with_unfolding_all decide

/-- C5.  `calc_combined_matrix` raises the blending-weight `ValueError` (and
therefore computes and saves nothing, the function aborting at source line
241) exactly when `beta < 0` or `beta > 1`; `beta = 0` and `beta = 1` pass
the check.  The check precedes every other computation, so the equivalence
holds for all inputs. -/
theorem C5_beta_bounds_ValueError (sm_mat rna_mat : DF) (beta : ℚ) (replace_nan : Bool) :
    calc_combined_matrix sm_mat rna_mat beta replace_nan = .error alphaMsg ↔
      beta < 0 ∨ beta > 1 := by
  constructor
  · intro h
    by_contra hb
    rw [calc_combined_matrix, if_neg hb] at h
    split at h
    · exact absurd (Except.error.inj h) (by decide)
    · split at h
      · exact absurd (Except.error.inj h) (by decide)
      · rw [combineCore] at h
        split at h
        · exact absurd (Except.error.inj h) (by decide)
        · split at h
          · rename_i e hgc
            rw [DF.getCols] at hgc
            split at hgc
            · exact absurd hgc (by simp)
            · rw [← Except.error.inj hgc] at h
              exact absurd (Except.error.inj h) (by decide)
          · exact absurd h (by simp)
  · intro hb
    rw [calc_combined_matrix, if_pos hb]

/-- C8.  `filter_weighted_network` writes exactly the rows of the input table
whose score is strictly greater than the `q`-quantile of the score column,
projected to the node-A, node-B and score columns: the output is that filter
of the input, every written edge scores strictly above the threshold, and
every input row scoring strictly above the threshold is written. -/
theorem C8_filter_weighted_network_rows (rows : List WRow) (q : ℚ) :
    filter_weighted_network rows q =
      (rows.filter (fun r => pandas_quantile (rows.map WRow.score) q < r.score)).map
        (fun r => (r.nodeA, r.nodeB, r.score)) ∧
    (∀ t ∈ filter_weighted_network rows q,
      pandas_quantile (rows.map WRow.score) q < t.2.2) ∧
    (∀ r ∈ rows, pandas_quantile (rows.map WRow.score) q < r.score →
      (r.nodeA, r.nodeB, r.score) ∈ filter_weighted_network rows q) := by
  refine ⟨rfl, ?_, ?_⟩
  · intro t ht
    rw [filter_weighted_network] at ht
    obtain ⟨r, hr, hteq⟩ := List.mem_map.mp ht
    obtain ⟨-, hscore⟩ := List.mem_filter.mp hr
    rw [← hteq]
    exact of_decide_eq_true hscore
  · intro r hr hscore
    rw [filter_weighted_network]
    exact List.mem_map.mpr ⟨r, List.mem_filter.mpr ⟨hr, decide_eq_true hscore⟩, rfl⟩

/-- A left fold by `min` is at most its initial value. -/
theorem foldl_min_le_init (l : List ℚ) (b : ℚ) : l.foldl min b ≤ b := by
  induction l generalizing b with
  | nil => exact le_refl b
  | cons x xs ih => exact le_trans (ih (min b x)) (min_le_left b x)

/-- A left fold by `min` is at most every list element. -/
theorem foldl_min_le_mem (l : List ℚ) (a : ℚ) (h : a ∈ l) :
    ∀ b : ℚ, l.foldl min b ≤ a := by
  induction l with
  | nil => cases h
  | cons x xs ih =>
    intro b
    rcases List.mem_cons.mp h with rfl | h2
    · exact le_trans (foldl_min_le_init xs (min b a)) (min_le_right b a)
    · exact ih h2 (min b x)

/-- A left fold by `max` is at least its initial value. -/
theorem le_foldl_max_init (l : List ℚ) (b : ℚ) : b ≤ l.foldl max b := by
  induction l generalizing b with
  | nil => exact le_refl b
  | cons x xs ih => exact le_trans (le_max_left b x) (ih (max b x))

/-- A left fold by `max` is at least every list element. -/
theorem le_foldl_max_mem (l : List ℚ) (a : ℚ) (h : a ∈ l) :
    ∀ b : ℚ, a ≤ l.foldl max b := by
  induction l with
  | nil => cases h
  | cons x xs ih =>
    intro b
    rcases List.mem_cons.mp h with rfl | h2
    · exact le_trans (le_max_right b a) (le_foldl_max_init xs (max b a))
    · exact ih h2 (max b x)

/-- `listMin` bounds every member from below. -/
theorem listMin_le (l : List ℚ) (a : ℚ) (h : a ∈ l) : listMin l ≤ a := by
  cases l with
  | nil => cases h
  | cons x xs =>
    rw [listMin]
    rcases List.mem_cons.mp h with rfl | h2
    · exact foldl_min_le_init xs a
    · exact foldl_min_le_mem xs a h2 x

/-- `listMax` bounds every member from above. -/
theorem le_listMax (l : List ℚ) (a : ℚ) (h : a ∈ l) : a ≤ listMax l := by
  cases l with
  | nil => cases h
  | cons x xs =>
    rw [listMax]
    rcases List.mem_cons.mp h with rfl | h2
    · exact le_foldl_max_init xs a
    · exact le_foldl_max_mem xs a h2 x

/-- The numeric values of a purely numeric column are the column itself. -/
theorem numsOf_map_num (l : List ℚ) : numsOf (l.map Val.num) = l := by
  induction l with
  | nil => rfl
  | cons x xs ih =>
    rw [List.map_cons, numsOf, List.filterMap_cons]
    rw [numsOf] at ih
    simpa using ih

/-- A numeric member of a column appears among its numeric values. -/
theorem mem_numsOf (xs : List Val) (q : ℚ) (h : Val.num q ∈ xs) : q ∈ numsOf xs := by
  rw [numsOf]
  exact List.mem_filterMap.mpr ⟨Val.num q, h, rfl⟩

/-- `Series.min` of a column with at least one numeric value. -/
theorem vmin_eq_listMin (xs : List Val) (h : numsOf xs ≠ []) :
    vmin xs = Val.num (listMin (numsOf xs)) := by
  unfold vmin listMin
  cases hn : numsOf xs with
  | nil => exact absurd hn h
  | cons q qs => rfl

/-- `Series.max` of a column with at least one numeric value. -/
theorem vmax_eq_listMax (xs : List Val) (h : numsOf xs ≠ []) :
    vmax xs = Val.num (listMax (numsOf xs)) := by
  unfold vmax listMax
  cases hn : numsOf xs with
  | nil => exact absurd hn h
  | cons q qs => rfl

/-- Normalizing a numeric cell of its own column yields a number in [0, 1]. -/
theorem min_max_entry_mem_unit (xs : List Val) (q : ℚ) (hq : Val.num q ∈ xs) :
    ∃ n : ℚ, min_max_entry xs (Val.num q) = Val.num n ∧ 0 ≤ n ∧ n ≤ 1 := by
  have hmem : q ∈ numsOf xs := mem_numsOf xs q hq
  have hne : numsOf xs ≠ [] := List.ne_nil_of_mem hmem
  have h1 : listMin (numsOf xs) ≤ q := listMin_le _ _ hmem
  have h2 : q ≤ listMax (numsOf xs) := le_listMax _ _ hmem
  simp only [min_max_entry, vmin_eq_listMin xs hne, vmax_eq_listMax xs hne, Val.sub]
  by_cases h0 : listMax (numsOf xs) - listMin (numsOf xs) = 0
  · rw [if_pos (by rw [h0])]
    exact ⟨0, rfl, le_refl 0, by norm_num⟩
  · rw [if_neg (fun hc => h0 (Val.num.inj hc))]
    have hpos : 0 < listMax (numsOf xs) - listMin (numsOf xs) :=
      lt_of_le_of_ne (by linarith) (Ne.symm h0)
    refine ⟨(q - listMin (numsOf xs)) / (listMax (numsOf xs) - listMin (numsOf xs)),
      rfl, div_nonneg (by linarith) (le_of_lt hpos), ?_⟩
    rw [div_le_one hpos]
    linarith

/-- C4.  For a nonempty numeric column, `min_max_normalize` maps a constant
column (max = min) to all zeros; otherwise it maps each entry `x` to
`(x - min) / (max - min)`, and in particular the column minimum to `0` and
the column maximum to `1`. -/
theorem C4_min_max_normalize_per_column (col : List ℚ) (h : col ≠ []) :
    (listMax col = listMin col →
      min_max_normalize (col.map Val.num) = col.map (fun _ => Val.num 0)) ∧
    (listMax col ≠ listMin col →
      min_max_normalize (col.map Val.num) =
        col.map (fun q => Val.num ((q - listMin col) / (listMax col - listMin col))) ∧
      min_max_entry (col.map Val.num) (Val.num (listMin col)) = Val.num 0 ∧
      min_max_entry (col.map Val.num) (Val.num (listMax col)) = Val.num 1) := by
  have hnums : numsOf (col.map Val.num) = col := numsOf_map_num col
  have hne : numsOf (col.map Val.num) ≠ [] := by rw [hnums]; exact h
  constructor
  · intro hconst
    simp only [min_max_normalize, vmin_eq_listMin _ hne, vmax_eq_listMax _ hne, hnums,
      Val.sub]
    rw [if_pos (by rw [hconst, sub_self])]
    rw [List.map_map]
    rfl
  · intro hconst
    have hsub : listMax col - listMin col ≠ 0 := sub_ne_zero.mpr hconst
    refine ⟨?_, ?_, ?_⟩
    · simp only [min_max_normalize, vmin_eq_listMin _ hne, vmax_eq_listMax _ hne, hnums,
        Val.sub]
      rw [if_neg (fun hc => hsub (Val.num.inj hc))]
      rw [List.map_map]
      rfl
    · simp only [min_max_entry, vmin_eq_listMin _ hne, vmax_eq_listMax _ hne, hnums,
        Val.sub]
      rw [if_neg (fun hc => hsub (Val.num.inj hc))]
      simp [Val.sub, Val.div, sub_self, zero_div]
    · simp only [min_max_entry, vmin_eq_listMin _ hne, vmax_eq_listMax _ hne, hnums,
        Val.sub]
      rw [if_neg (fun hc => hsub (Val.num.inj hc))]
      simp [Val.sub, Val.div, div_self hsub]

/-- Witness for C4 at the column [1, 3, 2]. -/
theorem C4_witness :
    (([1, 3, 2] : List ℚ) ≠ []) ∧
    ((listMax [1, 3, 2] = listMin [1, 3, 2] →
      min_max_normalize (([1, 3, 2] : List ℚ).map Val.num) =
        ([1, 3, 2] : List ℚ).map (fun _ => Val.num 0)) ∧
    (listMax [1, 3, 2] ≠ listMin [1, 3, 2] →
      min_max_normalize (([1, 3, 2] : List ℚ).map Val.num) =
        ([1, 3, 2] : List ℚ).map
          (fun q => Val.num ((q - listMin [1, 3, 2]) / (listMax [1, 3, 2] - listMin [1, 3, 2]))) ∧
      min_max_entry (([1, 3, 2] : List ℚ).map Val.num) (Val.num (listMin [1, 3, 2])) =
        Val.num 0 ∧
      min_max_entry (([1, 3, 2] : List ℚ).map Val.num) (Val.num (listMax [1, 3, 2])) =
        Val.num 1)) :=
  ⟨by decide, C4_min_max_normalize_per_column [1, 3, 2] (by decide)⟩

/-- C10.  Both shuffle routines leave the graph handed to them unchanged:
`degree_shuffNet` copies the input (`shuff_net = network.copy()`) and the
in-place double edge swaps act on the copy, `label_shuffNet` relabels with
`copy=True`; in each case the caller retains its original graph while the
returned graph is the shuffled one. -/
theorem C10_shuffles_leave_input_unchanged {V : Type} [DecidableEq V]
    (network : NXGraph V) (swaps : List (V × V × V × V)) (f : V → V) :
    (degree_shuffNet_caller network swaps).1 = network ∧
    (degree_shuffNet_caller network swaps).2 = degree_shuffNet network swaps ∧
    (label_shuffNet_caller network f).1 = network ∧
    (label_shuffNet_caller network f).2 = label_shuffNet network f :=
  ⟨rfl, rfl, rfl, rfl⟩

/-- C9.  On a well-formed sparse pair-list file (every line has at least two
tab-separated fields, no duplicate pairs), `load_binary_mutation_data` with
`filetype = "list"` returns the dense samples-by-genes matrix in which every
entry is `0` or `1` and an entry is `1` exactly when the (sample, gene) pair
occurs in the file; any filetype other than `"matrix"` or `"list"` raises the
`ValueError`. -/
theorem C9_load_binary_mutation_data_list (lines : List (List Char))
    (pairs : List (String × String)) (matrixFile : DF)
    (hparse : lines.mapM parsePair = some pairs) (hnd : pairs.Nodup) :
    (∃ M, load_binary_mutation_data lines matrixFile "list" = .ok M ∧
      M.idx = (pairs.map (fun p => Val.str p.1)).dedup ∧
      M.cols = (pairs.map (fun p => Val.str p.2)).dedup ∧
      ∀ r ∈ M.idx, ∀ c ∈ M.cols,
        (M.ent r c = Val.num 1 ∨ M.ent r c = Val.num 0) ∧
        (M.ent r c = Val.num 1 ↔ ∃ p ∈ pairs, r = Val.str p.1 ∧ c = Val.str p.2)) ∧
    (∀ ft : String, ft ≠ "matrix" → ft ≠ "list" →
      load_binary_mutation_data lines matrixFile ft = .error filetypeMsg) := by
  constructor
  · refine ⟨unstackPairs pairs, ?_, rfl, rfl, ?_⟩
    · rw [load_binary_mutation_data, if_pos rfl, hparse]
      exact if_pos hnd
    · intro r hr c hc
      constructor
      · by_cases hp : ∃ p ∈ pairs, r = Val.str p.1 ∧ c = Val.str p.2
        · exact Or.inl (by simp only [unstackPairs]; rw [if_pos hp])
        · exact Or.inr (by simp only [unstackPairs]; rw [if_neg hp])
      · simp only [unstackPairs]
        by_cases hp : ∃ p ∈ pairs, r = Val.str p.1 ∧ c = Val.str p.2
        · rw [if_pos hp]
          exact ⟨fun _ => hp, fun _ => rfl⟩
        · rw [if_neg hp]
          refine ⟨fun hc1 => absurd (Val.num.inj hc1) (by norm_num), fun hc2 => absurd hc2 hp⟩
  · intro ft h1 h2
    rw [load_binary_mutation_data, if_neg h2, if_neg h1]

/-- Witness for C9 at a two-line pair file. -/
theorem C9_witness :
    mutLines.mapM parsePair = some mutPairs ∧ mutPairs.Nodup ∧
    ((∃ M, load_binary_mutation_data mutLines dummyMatrix "list" = .ok M ∧
      M.idx = (mutPairs.map (fun p => Val.str p.1)).dedup ∧
      M.cols = (mutPairs.map (fun p => Val.str p.2)).dedup ∧
      ∀ r ∈ M.idx, ∀ c ∈ M.cols,
        (M.ent r c = Val.num 1 ∨ M.ent r c = Val.num 0) ∧
        (M.ent r c = Val.num 1 ↔ ∃ p ∈ mutPairs, r = Val.str p.1 ∧ c = Val.str p.2)) ∧
    (∀ ft : String, ft ≠ "matrix" → ft ≠ "list" →
      load_binary_mutation_data mutLines dummyMatrix ft = .error filetypeMsg)) :=
  ⟨by decide, by decide,
    C9_load_binary_mutation_data_list mutLines mutPairs dummyMatrix (by decide) (by decide)⟩

/-- C7.  For a graph whose edges join its nodes and a relabelling map that is
injective on the nodes (in the source, a permutation of the node list),
`label_shuffNet` returns a graph with the same number of nodes, the same
number of edges, and the same adjacency up to the relabelling: `a-b` is an
edge of the input exactly when `f a - f b` is an edge of the output, i.e. the
output is the isomorphic image of the input under the label permutation. -/
theorem C7_label_shuffNet_isomorphic {V : Type} [DecidableEq V] (G : NXGraph V) (f : V → V)
    (hwf : ∀ e ∈ G.edges, ∀ a, a ∈ e → a ∈ G.nodes)
    (hinj : ∀ a ∈ G.nodes, ∀ b ∈ G.nodes, f a = f b → a = b) :
    (label_shuffNet G f).nodes.card = G.nodes.card ∧
    (label_shuffNet G f).edges.card = G.edges.card ∧
    ∀ a b, a ∈ G.nodes → b ∈ G.nodes →
      (s(a, b) ∈ G.edges ↔ s(f a, f b) ∈ (label_shuffNet G f).edges) := by
  refine ⟨?_, ?_, ?_⟩
  · exact Finset.card_image_of_injOn fun a ha b hb => hinj a ha b hb
  · apply Finset.card_image_of_injOn
    intro e1 he1 e2 he2 heq
    revert he1 he2 heq
    refine Sym2.inductionOn₂ e1 e2 fun a b c d => ?_
    intro he1 he2 heq
    rw [Sym2.map_pair_eq, Sym2.map_pair_eq, Sym2.eq_iff] at heq
    have hmem1 := Finset.mem_coe.mp he1
    have hmem2 := Finset.mem_coe.mp he2
    have ha : a ∈ G.nodes := hwf _ hmem1 a (Sym2.mem_mk_left a b)
    have hb : b ∈ G.nodes := hwf _ hmem1 b (Sym2.mem_mk_right a b)
    have hc : c ∈ G.nodes := hwf _ hmem2 c (Sym2.mem_mk_left c d)
    have hd : d ∈ G.nodes := hwf _ hmem2 d (Sym2.mem_mk_right c d)
    rcases heq with ⟨h1, h2⟩ | ⟨h1, h2⟩
    · exact Sym2.eq_iff.mpr (Or.inl ⟨hinj a ha c hc h1, hinj b hb d hd h2⟩)
    · exact Sym2.eq_iff.mpr (Or.inr ⟨hinj a ha d hd h1, hinj b hb c hc h2⟩)
  · intro a b ha hb
    constructor
    · intro he
      have : Sym2.map f s(a, b) ∈ (label_shuffNet G f).edges :=
        Finset.mem_image_of_mem _ he
      rwa [Sym2.map_pair_eq] at this
    · intro he
      obtain ⟨e, he', heq⟩ := Finset.mem_image.mp he
      revert he' heq
      refine Sym2.ind (fun c d => ?_) e
      intro he' heq
      rw [Sym2.map_pair_eq, Sym2.eq_iff] at heq
      have hc : c ∈ G.nodes := hwf _ he' c (Sym2.mem_mk_left c d)
      have hd : d ∈ G.nodes := hwf _ he' d (Sym2.mem_mk_right c d)
      rcases heq with ⟨h1, h2⟩ | ⟨h1, h2⟩
      · rw [hinj c hc a ha h1, hinj d hd b hb h2] at he'
        exact he'
      · rw [hinj c hc b hb h1, hinj d hd a ha h2] at he'
        rwa [Sym2.eq_swap] at he'

/-- Witness for C7 at the three-node path graph and the cyclic relabelling. -/
theorem C7_witness :
    (∀ e ∈ pathGraph.edges, ∀ a : Fin 3, a ∈ e → a ∈ pathGraph.nodes) ∧
    (∀ a ∈ pathGraph.nodes, ∀ b ∈ pathGraph.nodes, rotMap a = rotMap b → a = b) ∧
    ((label_shuffNet pathGraph rotMap).nodes.card = pathGraph.nodes.card ∧
    (label_shuffNet pathGraph rotMap).edges.card = pathGraph.edges.card ∧
    ∀ a b, a ∈ pathGraph.nodes → b ∈ pathGraph.nodes →
      (s(a, b) ∈ pathGraph.edges ↔
        s(rotMap a, rotMap b) ∈ (label_shuffNet pathGraph rotMap).edges)) :=
  ⟨by decide, by decide,
    C7_label_shuffNet_isomorphic pathGraph rotMap (by decide) (by decide)⟩

/-- An edge with distinct endpoints is not a self-loop edge. -/
theorem sym2_ne_diag {V : Type} (p q w : V) (hpq : p ≠ q) : s(p, q) ≠ s(w, w) := by
  intro hc
  rcases Sym2.eq_iff.mp hc with ⟨h1, h2⟩ | ⟨h1, h2⟩ <;> exact hpq (h1.trans h2.symm)

/-- Indicator identity behind degree preservation of one double edge swap:
with `u, v, x, y` pairwise distinct, each node is covered as often by the
pair `u-x, v-y` as by the pair `u-v, x-y`. -/
theorem indicator_balance {V : Type} [DecidableEq V] (u v x y w : V)
    (huv : u ≠ v) (hux : u ≠ x) (huy : u ≠ y) (hvx : v ≠ x) (hvy : v ≠ y)
    (hxy : x ≠ y) :
    ((if w = u ∨ w = x then 1 else 0) + (if w = v ∨ w = y then 1 else 0) : ℕ) =
    (if w = u ∨ w = v then 1 else 0) + (if w = x ∨ w = y then 1 else 0) := by
  by_cases h1 : w = u <;> by_cases h2 : w = v <;> by_cases h3 : w = x <;>
    by_cases h4 : w = y <;> simp_all

/-- In a loopless graph the endpoints of every edge differ. -/
theorem ne_of_loopless {V : Type} (G : NXGraph V) (h : G.Loopless) {u v : V}
    (he : s(u, v) ∈ G.edges) : u ≠ v := by
  intro huv
  exact h _ he (by rw [huv]; exact Sym2.mk_isDiag_iff.mpr rfl)

/-- One attempted double edge swap on a loopless graph keeps the graph
loopless, keeps the number of edges, and keeps every node's degree. -/
theorem double_edge_swap_step_props {V : Type} [DecidableEq V] (G : NXGraph V)
    (hG : G.Loopless) (u v x y : V) :
    (double_edge_swap_step G u v x y).Loopless ∧
    (double_edge_swap_step G u v x y).edges.card = G.edges.card ∧
    ∀ w, nxDegree (double_edge_swap_step G u v x y) w = nxDegree G w := by
  rw [double_edge_swap_step]
  by_cases hg : u ≠ x ∧ v ≠ y ∧ s(u, v) ∈ G.edges ∧ s(x, y) ∈ G.edges ∧
      s(u, x) ∉ G.edges ∧ s(v, y) ∉ G.edges
  case neg =>
    rw [if_neg hg]
    exact ⟨hG, rfl, fun w => rfl⟩
  case pos =>
  rw [if_pos hg]
  obtain ⟨hux, hvy, huv, hxy, hnux, hnvy⟩ := hg
  have huv' : u ≠ v := ne_of_loopless G hG huv
  have hxy' : x ≠ y := ne_of_loopless G hG hxy
  have hvx : v ≠ x := by
    rintro rfl
    exact hnux huv
  have huy : u ≠ y := by
    rintro rfl
    exact hnvy (Sym2.eq_swap ▸ huv)
  have hab : s(u, v) ≠ s(x, y) := by
    intro hc
    rcases Sym2.eq_iff.mp hc with ⟨h1, h2⟩ | ⟨h1, h2⟩
    · exact hux h1
    · exact huy h1
  have hcd : s(u, x) ≠ s(v, y) := by
    intro hc
    rcases Sym2.eq_iff.mp hc with ⟨h1, h2⟩ | ⟨h1, h2⟩
    · exact huv' h1
    · exact huy h1
  have hRsubE : ({s(u, v), s(x, y)} : Finset (Sym2 V)) ⊆ G.edges := by
    rw [Finset.insert_subset_iff, Finset.singleton_subset_iff]
    exact ⟨huv, hxy⟩
  have hdisjEA : Disjoint G.edges ({s(u, x), s(v, y)} : Finset (Sym2 V)) := by
    rw [Finset.disjoint_right]
    intro e he
    rcases Finset.mem_insert.mp he with rfl | he2
    · exact hnux
    · rw [Finset.mem_singleton.mp he2]
      exact hnvy
  have hRsub : ({s(u, v), s(x, y)} : Finset (Sym2 V)) ⊆
      G.edges ∪ {s(u, x), s(v, y)} :=
    hRsubE.trans Finset.subset_union_left
  have hcardR : ({s(u, v), s(x, y)} : Finset (Sym2 V)).card = 2 := Finset.card_pair hab
  have hcardA : ({s(u, x), s(v, y)} : Finset (Sym2 V)).card = 2 := Finset.card_pair hcd
  refine ⟨?_, ?_, ?_⟩
  · intro e he
    obtain ⟨heu, -⟩ := Finset.mem_sdiff.mp he
    rcases Finset.mem_union.mp heu with heE | heA
    · exact hG e heE
    · rcases Finset.mem_insert.mp heA with rfl | heA2
      · rw [Sym2.mk_isDiag_iff]
        exact hux
      · rw [Finset.mem_singleton.mp heA2, Sym2.mk_isDiag_iff]
        exact hvy
  · rw [Finset.card_sdiff hRsub, Finset.card_union_of_disjoint hdisjEA, hcardR, hcardA]
    omega
  · intro w
    have hmult : ∀ p q : V, p ≠ q →
        edgeMult w s(p, q) = if w = p ∨ w = q then 1 else 0 := by
      intro p q hpq
      rw [edgeMult, if_neg (sym2_ne_diag p q w hpq)]
      simp [Sym2.mem_iff]
    have hsum1 :
        nxDegree { G with edges := (G.edges ∪ {s(u, x), s(v, y)}) \ {s(u, v), s(x, y)} } w +
          ∑ e ∈ ({s(u, v), s(x, y)} : Finset (Sym2 V)), edgeMult w e =
        ∑ e ∈ G.edges ∪ {s(u, x), s(v, y)}, edgeMult w e :=
      Finset.sum_sdiff hRsub
    have hsum2 : ∑ e ∈ G.edges ∪ {s(u, x), s(v, y)}, edgeMult w e =
        nxDegree G w + ∑ e ∈ ({s(u, x), s(v, y)} : Finset (Sym2 V)), edgeMult w e :=
      Finset.sum_union hdisjEA
    have hsum3 : ∑ e ∈ ({s(u, v), s(x, y)} : Finset (Sym2 V)), edgeMult w e =
        edgeMult w s(u, v) + edgeMult w s(x, y) := Finset.sum_pair hab
    have hsum4 : ∑ e ∈ ({s(u, x), s(v, y)} : Finset (Sym2 V)), edgeMult w e =
        edgeMult w s(u, x) + edgeMult w s(v, y) := Finset.sum_pair hcd
    have hbal : edgeMult w s(u, x) + edgeMult w s(v, y) =
        edgeMult w s(u, v) + edgeMult w s(x, y) := by
      rw [hmult u x hux, hmult v y hvy, hmult u v huv', hmult x y hxy']
      exact indicator_balance u v x y w huv' hux huy hvx hvy hxy'
    rw [hsum3] at hsum1
    rw [hsum4] at hsum2
    omega

/-- Edge-count and degree preservation extended over any sequence of
attempted swaps. -/
theorem degree_shuffNet_foldl {V : Type} [DecidableEq V] (swaps : List (V × V × V × V)) :
    ∀ G : NXGraph V, G.Loopless →
      (degree_shuffNet G swaps).edges.card = G.edges.card ∧
      ∀ w, nxDegree (degree_shuffNet G swaps) w = nxDegree G w := by
  induction swaps with
  | nil => exact fun G _ => ⟨rfl, fun w => rfl⟩
  | cons t ts ih =>
    intro G hG
    obtain ⟨hl, hc, hd⟩ := double_edge_swap_step_props G hG t.1 t.2.1 t.2.2.1 t.2.2.2
    obtain ⟨ihc, ihd⟩ := ih (double_edge_swap_step G t.1 t.2.1 t.2.2.1 t.2.2.2) hl
    constructor
    · rw [degree_shuffNet, List.foldl_cons]
      exact ihc.trans hc
    · intro w
      rw [degree_shuffNet, List.foldl_cons]
      exact (ihd w).trans (hd w)

/-- C6.  For every loopless input graph and every sequence of attempted
double edge swaps — whether the swap routine performs its full quota of
swaps, performs only some, or fails every attempt (the `try/except` of the
source converts the networkx give-up exception into simply returning the
current state of the copy) — the graph returned by `degree_shuffNet` has the
same number of edges and the same degree at every node as the input graph. -/
theorem C6_degree_shuffNet_preserves {V : Type} [DecidableEq V] (G : NXGraph V)
    (swaps : List (V × V × V × V)) (hG : G.Loopless) :
    (degree_shuffNet G swaps).edges.card = G.edges.card ∧
    ∀ w, nxDegree (degree_shuffNet G swaps) w = nxDegree G w :=
  degree_shuffNet_foldl swaps G hG

/-- Witness for C6 at a four-node graph with one successful swap attempt. -/
theorem C6_witness :
    swapGraph.Loopless ∧
    ((degree_shuffNet swapGraph swapList).edges.card = swapGraph.edges.card ∧
    ∀ w, nxDegree (degree_shuffNet swapGraph swapList) w = nxDegree swapGraph w) := by
  have hl : swapGraph.Loopless := by
    show ∀ e ∈ swapGraph.edges, ¬ e.IsDiag
    decide
  exact ⟨hl, C6_degree_shuffNet_preserves swapGraph swapList hl⟩

/-- The label union of two equal label lists is the list itself. -/
theorem unionKeep_self (xs : List Val) : unionKeep xs xs = xs := by
  rw [unionKeep]
  have h : xs.filter (fun y => decide (¬ y ∈ xs)) = [] := by
    rw [List.filter_eq_nil_iff]
    intro a ha
    simp [ha]
  rw [h, List.append_nil]

/-- Under the checks passing (valid `beta`, no missing values, `rna_mat`
nonempty, every `sm_mat` gene present in `rna_mat`), `calc_combined_matrix`
with `replace_nan = False` computes the weighted sum of `sm_mat` and the
normalized aligned expression matrix. -/
theorem combine_reduces (sm rna : DF) (beta : ℚ) (c0 : Val) (rest : List Val)
    (hb : ¬(beta < 0 ∨ beta > 1))
    (h1 : sm.isnullAny = false) (h2 : rna.isnullAny = false)
    (hcols : rna.cols = c0 :: rest)
    (hsub : ∀ c ∈ sm.cols, c ∈ rna.cols) :
    calc_combined_matrix sm rna beta false =
      .ok (DF.addFrames (DF.smul beta sm)
        (DF.smul (1 - beta) (((alignRNA sm rna c0).restrictCols sm.cols).applyMinMax))) := by
  rw [calc_combined_matrix, if_neg hb, if_neg (by simp [h1]), if_neg (by simp [h2])]
  show combineCore sm rna beta = _
  have hgc : (alignRNA sm rna c0).getCols sm.cols =
      .ok ((alignRNA sm rna c0).restrictCols sm.cols) := by
    rw [DF.getCols, if_pos]
    intro c hc
    show c ∈ rna.cols.filter (fun c2 => decide (c2 ∈ sm.cols))
    exact List.mem_filter.mpr ⟨hsub c hc, decide_eq_true hc⟩
  rw [combineCore, hcols]
  show (match (alignRNA sm rna c0).getCols sm.cols with
    | .error e => (Except.error e : Except String DF)
    | .ok rna_clean =>
      .ok ((DF.smul beta sm).addFrames (DF.smul (1 - beta) rna_clean.applyMinMax))) = _
  rw [hgc]

/-- Under the alignment hypotheses — every sample of `sm_mat` occurs among
the patient ids in `rna_mat`'s first column, and the expression values of
the shared genes are numeric — every cell of the aligned expression matrix
carries a number. -/
theorem aligned_entry_num (sm rna : DF) (c0 : Val)
    (hsub : ∀ c ∈ sm.cols, c ∈ rna.cols)
    (hpat : ∀ r ∈ sm.idx, ∃ r' ∈ rna.idx, rna.ent r' c0 = r)
    (hnum : ∀ r ∈ rna.idx, ∀ c ∈ rna.cols, c ∈ sm.cols → (rna.ent r c).isNum = true) :
    ∀ r ∈ sm.idx, ∀ c ∈ sm.cols,
      ∃ q : ℚ, ((alignRNA sm rna c0).restrictCols sm.cols).ent r c = Val.num q := by
  intro r hr c hc
  obtain ⟨r', hr', hkey⟩ := hpat r hr
  have hmem : r ∈ rna.idx.map (fun a => rna.ent a c0) :=
    List.mem_map.mpr ⟨r', hr', hkey⟩
  have hstep : ((alignRNA sm rna c0).restrictCols sm.cols).ent r c =
      if r ∈ rna.idx.map (fun a => rna.ent a c0)
      then (match rna.idx.find? (fun a => decide (rna.ent a c0 = r)) with
            | some a => rna.ent a c
            | none => Val.nan)
      else Val.nan := rfl
  have hex : (rna.idx.find? (fun a => decide (rna.ent a c0 = r))).isSome = true :=
    List.find?_isSome.mpr ⟨r', hr', decide_eq_true hkey⟩
  obtain ⟨a, hfind⟩ := Option.isSome_iff_exists.mp hex
  have hamem : a ∈ rna.idx := List.mem_of_find?_eq_some hfind
  have hanum : (rna.ent a c).isNum = true := hnum a hamem c (hsub c hc) hc
  have hred : ((alignRNA sm rna c0).restrictCols sm.cols).ent r c = rna.ent a c := by
    rw [hstep, if_pos hmem, hfind]
  rw [hred]
  cases hval : rna.ent a c with
  | num q => exact ⟨q, rfl⟩
  | nan => rw [hval] at hanum; exact absurd hanum (by simp [Val.isNum])
  | str s => rw [hval] at hanum; exact absurd hanum (by simp [Val.isNum])

/-- Under the alignment hypotheses, every cell of the min-max normalized
aligned expression matrix is a number in [0, 1]. -/
theorem aligned_norm_unit (sm rna : DF) (c0 : Val)
    (hsub : ∀ c ∈ sm.cols, c ∈ rna.cols)
    (hpat : ∀ r ∈ sm.idx, ∃ r' ∈ rna.idx, rna.ent r' c0 = r)
    (hnum : ∀ r ∈ rna.idx, ∀ c ∈ rna.cols, c ∈ sm.cols → (rna.ent r c).isNum = true) :
    ∀ r ∈ sm.idx, ∀ c ∈ sm.cols,
      ∃ n : ℚ,
        (((alignRNA sm rna c0).restrictCols sm.cols).applyMinMax).ent r c = Val.num n ∧
        0 ≤ n ∧ n ≤ 1 := by
  intro r hr c hc
  obtain ⟨q, hq⟩ := aligned_entry_num sm rna c0 hsub hpat hnum r hr c hc
  have happ : (((alignRNA sm rna c0).restrictCols sm.cols).applyMinMax).ent r c =
      min_max_entry
        (((alignRNA sm rna c0).restrictCols sm.cols).idx.map
          (fun r2 => ((alignRNA sm rna c0).restrictCols sm.cols).ent r2 c))
        (((alignRNA sm rna c0).restrictCols sm.cols).ent r c) := rfl
  have hcolmem : Val.num q ∈
      ((alignRNA sm rna c0).restrictCols sm.cols).idx.map
        (fun r2 => ((alignRNA sm rna c0).restrictCols sm.cols).ent r2 c) :=
    List.mem_map.mpr ⟨r, hr, hq⟩
  rw [happ, hq]
  exact min_max_entry_mem_unit _ q hcolmem

/-- C2 counterexample.  The claim quantifies over every pair of NaN-free
input matrices, but when a sample of `sm_mat` has no row in `rna_mat`
(here the only patient id in `rna_mat` is `s2` while `sm_mat`'s sample is
`s1`), `reindex` introduces a missing value, `0 * NaN` is `NaN`, and with
`beta = 1` the returned matrix differs from `sm_mat`: its only cell is `NaN`
where `sm_mat` holds `1`.  So `calc_combined_matrix` with `beta = 1` does
not return `sm_mat` unchanged for every NaN-free pair. -/
theorem C2_counterexample :
    smBinary.isnullAny = false ∧ rnaMismatch.isnullAny = false ∧
    smBinary.ent (Val.str "s1") (Val.str "g1") = Val.num 1 ∧
    entryOf (Val.str "s1") (Val.str "g1")
      (calc_combined_matrix smBinary rnaMismatch 1 false) = some Val.nan := by
  with_unfolding_all decide

/-- C2 (amended).  For NaN-free matrices such that `rna_mat` is nonempty,
every `sm_mat` gene occurs among `rna_mat`'s columns, every `sm_mat` sample
occurs among the (distinct) patient ids in `rna_mat`'s first column, and the
matrix values are numeric, `calc_combined_matrix` with `beta = 1` returns
`sm_mat` unchanged (same labels, same cell values) and with `beta = 0`
returns the column-wise min-max normalized expression matrix aligned to
`sm_mat`'s rows and columns. -/
theorem C2_beta_one_and_zero (sm rna : DF) (c0 : Val) (rest : List Val)
    (h1 : sm.isnullAny = false) (h2 : rna.isnullAny = false)
    (hcols : rna.cols = c0 :: rest)
    (hsub : ∀ c ∈ sm.cols, c ∈ rna.cols)
    (hpat : ∀ r ∈ sm.idx, ∃ r' ∈ rna.idx, rna.ent r' c0 = r)
    (hnodup : (rna.idx.map (fun r => rna.ent r c0)).Nodup)
    (hnum : ∀ r ∈ rna.idx, ∀ c ∈ rna.cols, c ∈ sm.cols → (rna.ent r c).isNum = true)
    (hsmnum : ∀ r ∈ sm.idx, ∀ c ∈ sm.cols, (sm.ent r c).isNum = true) :
    (∃ M, calc_combined_matrix sm rna 1 false = .ok M ∧
      M.idx = sm.idx ∧ M.cols = sm.cols ∧
      ∀ r ∈ sm.idx, ∀ c ∈ sm.cols, M.ent r c = sm.ent r c) ∧
    (∃ M, calc_combined_matrix sm rna 0 false = .ok M ∧
      M.idx = sm.idx ∧ M.cols = sm.cols ∧
      ∀ r ∈ sm.idx, ∀ c ∈ sm.cols,
        M.ent r c =
          (((alignRNA sm rna c0).restrictCols sm.cols).applyMinMax).ent r c) := by
  constructor
  · refine ⟨_, combine_reduces sm rna 1 c0 rest (by norm_num) h1 h2 hcols hsub,
      unionKeep_self sm.idx, unionKeep_self sm.cols, ?_⟩
    intro r hr c hc
    obtain ⟨n, hn, -, -⟩ := aligned_norm_unit sm rna c0 hsub hpat hnum r hr c hc
    have hsnum := hsmnum r hr c hc
    show (if r ∈ sm.idx ∧ c ∈ sm.cols ∧ r ∈ sm.idx ∧ c ∈ sm.cols
      then Val.add (Val.mulNum 1 (sm.ent r c))
        (Val.mulNum (1 - 1)
          ((((alignRNA sm rna c0).restrictCols sm.cols).applyMinMax).ent r c))
      else Val.nan) = sm.ent r c
    rw [if_pos ⟨hr, hc, hr, hc⟩, hn]
    cases hs : sm.ent r c with
    | num s =>
      show Val.num (1 * s + (1 - 1) * n) = Val.num s
      congr 1
      ring
    | nan => rw [hs] at hsnum; exact absurd hsnum (by simp [Val.isNum])
    | str t => rw [hs] at hsnum; exact absurd hsnum (by simp [Val.isNum])
  · refine ⟨_, combine_reduces sm rna 0 c0 rest (by norm_num) h1 h2 hcols hsub,
      unionKeep_self sm.idx, unionKeep_self sm.cols, ?_⟩
    intro r hr c hc
    obtain ⟨n, hn, -, -⟩ := aligned_norm_unit sm rna c0 hsub hpat hnum r hr c hc
    have hsnum := hsmnum r hr c hc
    show (if r ∈ sm.idx ∧ c ∈ sm.cols ∧ r ∈ sm.idx ∧ c ∈ sm.cols
      then Val.add (Val.mulNum 0 (sm.ent r c))
        (Val.mulNum (1 - 0)
          ((((alignRNA sm rna c0).restrictCols sm.cols).applyMinMax).ent r c))
      else Val.nan) =
      (((alignRNA sm rna c0).restrictCols sm.cols).applyMinMax).ent r c
    rw [if_pos ⟨hr, hc, hr, hc⟩, hn]
    cases hs : sm.ent r c with
    | num s =>
      show Val.num (0 * s + (1 - 0) * n) = Val.num n
      congr 1
      ring
    | nan => rw [hs] at hsnum; exact absurd hsnum (by simp [Val.isNum])
    | str t => rw [hs] at hsnum; exact absurd hsnum (by simp [Val.isNum])

/-- Witness for C2 at a 1 × 1 mutation matrix and a matching expression
matrix. -/
theorem C2_witness :
    smBinary.isnullAny = false ∧ rnaMatch.isnullAny = false ∧
    rnaMatch.cols = Val.str "pid" :: [Val.str "g1"] ∧
    (∀ c ∈ smBinary.cols, c ∈ rnaMatch.cols) ∧
    (∀ r ∈ smBinary.idx, ∃ r' ∈ rnaMatch.idx, rnaMatch.ent r' (Val.str "pid") = r) ∧
    (rnaMatch.idx.map (fun r => rnaMatch.ent r (Val.str "pid"))).Nodup ∧
    (∀ r ∈ rnaMatch.idx, ∀ c ∈ rnaMatch.cols, c ∈ smBinary.cols →
      (rnaMatch.ent r c).isNum = true) ∧
    (∀ r ∈ smBinary.idx, ∀ c ∈ smBinary.cols, (smBinary.ent r c).isNum = true) ∧
    ((∃ M, calc_combined_matrix smBinary rnaMatch 1 false = .ok M ∧
      M.idx = smBinary.idx ∧ M.cols = smBinary.cols ∧
      ∀ r ∈ smBinary.idx, ∀ c ∈ smBinary.cols, M.ent r c = smBinary.ent r c) ∧
    (∃ M, calc_combined_matrix smBinary rnaMatch 0 false = .ok M ∧
      M.idx = smBinary.idx ∧ M.cols = smBinary.cols ∧
      ∀ r ∈ smBinary.idx, ∀ c ∈ smBinary.cols,
        M.ent r c =
          (((alignRNA smBinary rnaMatch (Val.str "pid")).restrictCols
            smBinary.cols).applyMinMax).ent r c)) :=
  ⟨by decide, by decide, by decide, by decide, by decide, by decide, by decide, by decide,
    C2_beta_one_and_zero smBinary rnaMatch (Val.str "pid") [Val.str "g1"]
      (by decide) (by decide) (by decide) (by decide) (by decide) (by decide)
      (by decide) (by decide)⟩

/-- C3 counterexample.  The claim quantifies over every pair of NaN-free
input matrices and every `beta` in [0, 1], but with `sm_mat`'s sample absent
from `rna_mat`'s patient ids the aligned expression entry is `NaN` and so is
the combined cell for `beta = 1/2`: a `NaN` cell is not a number in [0, 1],
even though `sm_mat` is a 0/1 matrix and both inputs are NaN-free. -/
theorem C3_counterexample :
    smBinary.isnullAny = false ∧ rnaMismatch.isnullAny = false ∧
    smBinary.ent (Val.str "s1") (Val.str "g1") = Val.num 1 ∧
    (0 ≤ (1 : ℚ) / 2 ∧ (1 : ℚ) / 2 ≤ 1) ∧
    entryOf (Val.str "s1") (Val.str "g1")
      (calc_combined_matrix smBinary rnaMismatch (1 / 2) false) = some Val.nan := by
  with_unfolding_all decide

/-- C3 (amended).  For NaN-free matrices satisfying the alignment
hypotheses (nonempty `rna_mat`, `sm_mat` genes among `rna_mat` columns,
`sm_mat` samples among the distinct patient ids, numeric values, `sm_mat`
entries in {0, 1}) and every `beta` in [0, 1], every cell of the returned
matrix is the convex combination `beta * sm + (1 - beta) * normalized`
and lies in [0, 1]. -/
theorem C3_entries_in_unit_interval (sm rna : DF) (beta : ℚ) (c0 : Val) (rest : List Val)
    (hb0 : 0 ≤ beta) (hb1 : beta ≤ 1)
    (h1 : sm.isnullAny = false) (h2 : rna.isnullAny = false)
    (hcols : rna.cols = c0 :: rest)
    (hsub : ∀ c ∈ sm.cols, c ∈ rna.cols)
    (hpat : ∀ r ∈ sm.idx, ∃ r' ∈ rna.idx, rna.ent r' c0 = r)
    (hnodup : (rna.idx.map (fun r => rna.ent r c0)).Nodup)
    (hnum : ∀ r ∈ rna.idx, ∀ c ∈ rna.cols, c ∈ sm.cols → (rna.ent r c).isNum = true)
    (hsm01 : ∀ r ∈ sm.idx, ∀ c ∈ sm.cols,
      sm.ent r c = Val.num 0 ∨ sm.ent r c = Val.num 1) :
    ∃ M, calc_combined_matrix sm rna beta false = .ok M ∧
      M.idx = sm.idx ∧ M.cols = sm.cols ∧
      ∀ r ∈ sm.idx, ∀ c ∈ sm.cols,
        ∃ s n : ℚ, sm.ent r c = Val.num s ∧
          (((alignRNA sm rna c0).restrictCols sm.cols).applyMinMax).ent r c = Val.num n ∧
          M.ent r c = Val.num (beta * s + (1 - beta) * n) ∧
          0 ≤ beta * s + (1 - beta) * n ∧ beta * s + (1 - beta) * n ≤ 1 := by
  have hb : ¬(beta < 0 ∨ beta > 1) := by
    rintro (h | h) <;> linarith
  refine ⟨_, combine_reduces sm rna beta c0 rest hb h1 h2 hcols hsub,
    unionKeep_self sm.idx, unionKeep_self sm.cols, ?_⟩
  intro r hr c hc
  obtain ⟨n, hn, hn0, hn1⟩ := aligned_norm_unit sm rna c0 hsub hpat hnum r hr c hc
  have hentry :
      ((DF.smul beta sm).addFrames
        (DF.smul (1 - beta)
          (((alignRNA sm rna c0).restrictCols sm.cols).applyMinMax))).ent r c =
      Val.add (Val.mulNum beta (sm.ent r c)) (Val.mulNum (1 - beta) (Val.num n)) := by
    show (if r ∈ sm.idx ∧ c ∈ sm.cols ∧ r ∈ sm.idx ∧ c ∈ sm.cols
      then Val.add (Val.mulNum beta (sm.ent r c))
        (Val.mulNum (1 - beta)
          ((((alignRNA sm rna c0).restrictCols sm.cols).applyMinMax).ent r c))
      else Val.nan) = _
    rw [if_pos ⟨hr, hc, hr, hc⟩, hn]
  have haux1 : 0 ≤ (1 - beta) * n := mul_nonneg (by linarith) hn0
  have haux2 : (1 - beta) * n ≤ 1 - beta := mul_le_of_le_one_right (by linarith) hn1
  rcases hsm01 r hr c hc with hs | hs
  · refine ⟨0, n, hs, hn, ?_, by linarith, by linarith⟩
    rw [hentry, hs]
    rfl
  · refine ⟨1, n, hs, hn, ?_, by linarith, by linarith⟩
    rw [hentry, hs]
    rfl

/-- Witness for C3 at a 1 × 1 mutation matrix, a matching expression matrix
and `beta = 1/2`. -/
theorem C3_witness :
    (0 ≤ (1 : ℚ) / 2) ∧ ((1 : ℚ) / 2 ≤ 1) ∧
    smBinary.isnullAny = false ∧ rnaMatch.isnullAny = false ∧
    rnaMatch.cols = Val.str "pid" :: [Val.str "g1"] ∧
    (∀ c ∈ smBinary.cols, c ∈ rnaMatch.cols) ∧
    (∀ r ∈ smBinary.idx, ∃ r' ∈ rnaMatch.idx, rnaMatch.ent r' (Val.str "pid") = r) ∧
    (rnaMatch.idx.map (fun r => rnaMatch.ent r (Val.str "pid"))).Nodup ∧
    (∀ r ∈ rnaMatch.idx, ∀ c ∈ rnaMatch.cols, c ∈ smBinary.cols →
      (rnaMatch.ent r c).isNum = true) ∧
    (∀ r ∈ smBinary.idx, ∀ c ∈ smBinary.cols,
      smBinary.ent r c = Val.num 0 ∨ smBinary.ent r c = Val.num 1) ∧
    (∃ M, calc_combined_matrix smBinary rnaMatch (1 / 2) false = .ok M ∧
      M.idx = smBinary.idx ∧ M.cols = smBinary.cols ∧
      ∀ r ∈ smBinary.idx, ∀ c ∈ smBinary.cols,
        ∃ s n : ℚ, smBinary.ent r c = Val.num s ∧
          (((alignRNA smBinary rnaMatch (Val.str "pid")).restrictCols
            smBinary.cols).applyMinMax).ent r c = Val.num n ∧
          M.ent r c = Val.num ((1 / 2) * s + (1 - 1 / 2) * n) ∧
          0 ≤ (1 / 2) * s + (1 - 1 / 2) * n ∧ (1 / 2) * s + (1 - 1 / 2) * n ≤ 1) :=
  ⟨by with_unfolding_all decide, by with_unfolding_all decide, by decide, by decide,
    by decide, by decide, by decide, by decide, by decide, by decide,
    C3_entries_in_unit_interval smBinary rnaMatch (1 / 2) (Val.str "pid") [Val.str "g1"]
      (by with_unfolding_all decide) (by with_unfolding_all decide) (by decide) (by decide)
      (by decide) (by decide) (by decide) (by decide) (by decide) (by decide)⟩

end MultiNBS
